import Mathlib

/-!
Echo server (`echo/other/echo.go`).

A shallow embedding of the program's `main`: the bind step, the accept loop and the
per-connection handler goroutine `defer conn.Close(); io.Copy(conn, conn)`.

The operating system and the peers are the environment: what `net.Listen`, `Accept`,
`Read` and `Write` return is an input.  A connection carries the script of what the
transport will deliver (`inbox`) and of how its successive `Write` calls will answer
(`wplan`); every call the program makes on the connection is recorded, in order, in
`ops`.  What `main` itself does is recorded in a trace.  The goroutines are
interleaved by a schedule of events.
-/

namespace Echo

/-- One octet of the byte stream. -/
abbrev Byte := Fin 256

/-- Go `error` values that the program can meet. `EOF`, `ErrShortWrite` and
`errInvalidWrite` are the sentinels of package `io`; `sys` stands for any other
error (a `*net.OpError` carrying an errno). -/
inductive GoError where
  | EOF
  | ErrShortWrite
  | errInvalidWrite
  | sys (errno : Nat)
  deriving DecidableEq

/-- What the transport hands to the next `Read` on a connection: bytes sent by the
peer (one chunk per peer write), the peer's close of its sending side, or a
failure. -/
inductive Incoming where
  | data (bs : List Byte)
  | eof
  | fail (e : GoError)
  deriving DecidableEq

/-- How one `Write` call answers: `ok` accepts the whole slice and returns
`(len(p), nil)`; `returns n err` accepts the first `n` bytes (at most the slice) and
returns `(n, err)`. -/
inductive WriteOutcome where
  | ok
  | returns (n : Nat) (err : Option GoError)
  deriving DecidableEq

/-- A call made on a connection, with what it returned. -/
inductive ConnOp where
  | read (bs : List Byte) (err : Option GoError)
  | write (p : List Byte) (n : Nat) (err : Option GoError)
  | close
  deriving DecidableEq

/-- A `net.Conn`: the environment's script for it and the record of the calls made
on it so far (oldest first). -/
structure Conn where
  inbox : List Incoming
  wplan : List WriteOutcome
  ops : List ConnOp
  deriving DecidableEq

/-- A connection as `Accept` returns it: nothing has been called on it yet. -/
def Conn.fresh (inbox : List Incoming) (wplan : List WriteOutcome) : Conn :=
  ⟨inbox, wplan, []⟩

/-- `conn.Read(buf)` with `len(buf) = max`: `none` when nothing is pending (the call
blocks); otherwise the bytes returned, the error returned and the connection after
the call. A chunk longer than the buffer is delivered in pieces. End-of-stream is
sticky. -/
def Conn.Read (c : Conn) (max : Nat) : Option (List Byte × Option GoError × Conn) :=
  match c.inbox with
  | [] => none
  | .data bs :: rest =>
    if bs.length ≤ max then
      some (bs, none, { c with inbox := rest, ops := c.ops ++ [.read bs none] })
    else
      some (bs.take max, none,
        { c with inbox := .data (bs.drop max) :: rest, ops := c.ops ++ [.read (bs.take max) none] })
  | .eof :: _ => some ([], some .EOF, { c with ops := c.ops ++ [.read [] (some .EOF)] })
  | .fail e :: rest =>
    some ([], some e, { c with inbox := rest, ops := c.ops ++ [.read [] (some e)] })

/-- `conn.Write(p)`: the count returned, the error returned and the connection after
the call. Once the plan is used up every write succeeds in full. -/
def Conn.Write (c : Conn) (p : List Byte) : Nat × Option GoError × Conn :=
  match c.wplan with
  | [] => (p.length, none, { c with ops := c.ops ++ [.write p p.length none] })
  | .ok :: rest =>
    (p.length, none, { c with wplan := rest, ops := c.ops ++ [.write p p.length none] })
  | .returns n err :: rest =>
    (n, err, { c with wplan := rest, ops := c.ops ++ [.write p n err] })

/-- `conn.Close()`; the error it returns is dropped by the caller. -/
def Conn.Close (c : Conn) : Conn :=
  { c with ops := c.ops ++ [.close] }

/-- Bytes that `Read` calls have returned so far, in order. -/
def bytesRead : List ConnOp → List Byte
  | [] => []
  | .read bs _ :: ops => bs ++ bytesRead ops
  | _ :: ops => bytesRead ops

/-- Bytes that `Write` calls have put on the wire so far, in order. -/
def bytesWritten : List ConnOp → List Byte
  | [] => []
  | .write p n _ :: ops => p.take n ++ bytesWritten ops
  | _ :: ops => bytesWritten ops

/-- Number of `Close` calls so far. -/
def closeCount : List ConnOp → Nat
  | [] => 0
  | .close :: ops => closeCount ops + 1
  | _ :: ops => closeCount ops

/-- Size of the buffer `io.Copy` allocates (`32 * 1024`). -/
def copyBufSize : Nat := 32 * 1024

/-- Control point inside `io.Copy(dst, src)`. -/
inductive CopyPC where
  /-- about to call `src.Read(buf)`; `written` bytes copied so far -/
  | reading (written : Nat)
  /-- `Read` returned `nr > 0` bytes `buf[0:nr]` and error `er`; about to call
  `dst.Write(buf[0:nr])` -/
  | writing (written : Nat) (buf : List Byte) (er : Option GoError)
  /-- the loop is left: `io.Copy` returns `(written, err)` -/
  | returned (written : Nat) (err : Option GoError)
  deriving DecidableEq

/-- Tail of the copy loop body, `if er != nil { if er != EOF { err = er }; break }`:
loop again, or leave the loop with `err`. -/
def afterRead (written : Nat) (er : Option GoError) : CopyPC :=
  match er with
  | none => .reading written
  | some e => .returned written (if e = .EOF then none else some e)

/-- Modelled from the spec: the relay `io.Copy(conn, conn)` is Go library code that is
not under `src/`. Its loop is taken as the spec describes it ("read whatever bytes
are currently available from the connection and write those same bytes back to the
same connection, repeating until the read side signals end-of-stream or any
read/write operation fails"), in the shape of the library's generic copy loop:
`nr, er := src.Read(buf)`; when `nr > 0`, `nw, ew := dst.Write(buf[0:nr])`, where an
out-of-range count becomes `errInvalidWrite`, and a write error or a short write
leaves the loop; then a non-nil `er` leaves the loop (`EOF` is not reported as an
error). Source and destination are the same connection. One step is one call on the
connection; `none` is a `Read` that blocks, or a loop that has already returned. -/
def copyStep (k : CopyPC) (c : Conn) : Option (CopyPC × Conn) :=
  match k with
  | .reading written =>
    match c.Read copyBufSize with
    | none => none
    | some (buf, er, c1) =>
      if 0 < buf.length then some (.writing written buf er, c1)
      else some (afterRead written er, c1)
  | .writing written buf er =>
    match c.Write buf with
    | (nw, ew, c1) =>
      let inval := buf.length < nw
      let nw := if inval then 0 else nw
      let ew := if inval then some (ew.getD .errInvalidWrite) else ew
      let written := written + nw
      match ew with
      | some e => some (.returned written (some e), c1)
      | none =>
        if buf.length ≠ nw then some (.returned written (some .ErrShortWrite), c1)
        else some (afterRead written er, c1)
  | .returned _ _ => none

/-- Control point of a handler goroutine
`func(conn net.Conn) { defer func() { conn.Close() }(); io.Copy(conn, conn) }`. -/
inductive HandlerPC where
  /-- the `defer` is registered and `io.Copy(conn, conn)` is running -/
  | copying (k : CopyPC)
  /-- the deferred closure has run and the goroutine has returned -/
  | done
  deriving DecidableEq

/-- A handler goroutine: where it stands and the connection it owns. -/
structure Handler where
  pc : HandlerPC
  conn : Conn
  deriving DecidableEq

/-- The goroutine as `go func(conn net.Conn) {...}(conn)` starts it, on the
connection passed as its argument: `io.Copy` is entered with `written = 0`. -/
def Handler.start (c : Conn) : Handler :=
  ⟨.copying (.reading 0), c⟩

/-- One step of the handler goroutine. While `io.Copy` runs, the step is the copy
loop's; both results of `io.Copy` are dropped, and once it has returned the deferred
closure calls `conn.Close()` and the goroutine ends. A blocked `Read` and a finished
goroutine do not move. -/
def handlerStep (h : Handler) : Handler :=
  match h.pc with
  | .copying (.returned _ _) => ⟨.done, h.conn.Close⟩
  | .copying k =>
    match copyStep k h.conn with
    | none => h
    | some (k1, c1) => ⟨.copying k1, c1⟩
  | .done => h

/-- The handler after `n` steps. -/
def runHandler : Nat → Handler → Handler
  | 0, h => h
  | n + 1, h => runHandler n (handlerStep h)

/-- An operand of a `log` call. -/
inductive LogArg where
  | str (s : String)
  | err (e : GoError)
  deriving DecidableEq

/-- What `main` itself does, as seen from outside the process. -/
inductive Action where
  /-- `net.Listen(network, address)` -/
  | listen (network address : String)
  /-- a line written by package `log` with these operands -/
  | println (args : List LogArg)
  /-- `os.Exit(code)` -/
  | exit (code : Nat)
  /-- `server.Accept()` -/
  | accept
  /-- `go func(conn net.Conn) {...}(conn)`, starting handler number `idx` -/
  | go (idx : Nat)
  deriving DecidableEq

/-- Control point of `main`. -/
inductive MainPC where
  | start
  | accepting
  | exited (code : Nat)
  deriving DecidableEq

/-- The process: `main`, what it has done so far (oldest first) and the handler
goroutines it has started, in the order they were started. -/
structure Sys where
  pc : MainPC
  trace : List Action
  handlers : List Handler

/-- What one `server.Accept()` returns. -/
inductive AcceptResult where
  | conn (inbox : List Incoming) (wplan : List WriteOutcome)
  | err (e : GoError)

/-- What happens next: `main` calls `net.Listen` and gets `err`; `main` runs one
iteration of the accept loop and `Accept` returns `r`; handler number `i` is
scheduled for one step. -/
inductive Event where
  | listen (err : Option GoError)
  | accept (r : AcceptResult)
  | handler (i : Nat)

/-- The listen address, `addr := "localhost:55555"`. -/
def addr : String := "localhost:55555"

/-- The line `log.Println("Server is running on:", addr)`. -/
def readyLine : Action := .println [.str "Server is running on:", .str addr]

/-- The process before `main` has done anything. -/
def boot : Sys := ⟨.start, [], []⟩

/-- Lines 10-17 of `main`: `net.Listen("tcp", addr)`; on an error
`log.Fatalln(err)`, which prints the error and calls `os.Exit(1)`; otherwise the
readiness line, and `main` enters the loop. (`defer server.Close()` never runs: the
loop has no exit.) -/
def mainListen (s : Sys) (err : Option GoError) : Sys :=
  match err with
  | some e =>
    { s with pc := .exited 1, trace := s.trace ++ [.listen "tcp" addr, .println [.err e], .exit 1] }
  | none =>
    { s with pc := .accepting, trace := s.trace ++ [.listen "tcp" addr, readyLine] }

/-- One iteration of the accept loop, lines 19-32: on an error the line is logged
and the loop continues; otherwise a handler goroutine is started on the fresh
connection. -/
def mainAccept (s : Sys) (r : AcceptResult) : Sys :=
  match r with
  | .err e =>
    { s with trace := s.trace ++ [.accept, .println [.str "Failed to accept conn.", .err e]] }
  | .conn inbox wplan =>
    { s with
      trace := s.trace ++ [.accept, .go s.handlers.length]
      handlers := s.handlers ++ [Handler.start (Conn.fresh inbox wplan)] }

/-- One event. `main` listens once, at the start; it accepts, and handlers run, only
while the process is in the accept loop. An event that cannot happen in the current
state changes nothing. -/
def sysStep (s : Sys) (ev : Event) : Sys :=
  match s.pc, ev with
  | .start, .listen err => mainListen s err
  | .accepting, .accept r => mainAccept s r
  | .accepting, .handler i =>
    match s.handlers[i]? with
    | some h => { s with handlers := s.handlers.set i (handlerStep h) }
    | none => s
  | _, _ => s

/-- The process after a schedule of events. -/
def run (s : Sys) (sched : List Event) : Sys :=
  sched.foldl sysStep s

/-- The program `main` under the environment `sched`. -/
def main (sched : List Event) : Sys :=
  run boot sched

/-- All bytes the peer's chunks in an inbox hold, in order. -/
def allData : List Incoming → List Byte
  | [] => []
  | .data bs :: rest => bs ++ allData rest
  | _ :: rest => allData rest

/-- A call that failed: a `Read` returning an error other than `EOF`, or a `Write`
returning an error or a count other than the slice length. -/
def isFailure : ConnOp → Bool
  | .read _ (some e) => decide (e ≠ .EOF)
  | .read _ none => false
  | .write p n err => decide (n ≠ p.length) || err.isSome
  | .close => false

/-- No call recorded in `ops` failed. -/
def noFail (ops : List ConnOp) : Prop :=
  ∀ op ∈ ops, isFailure op = false

/-- An inbox event that ends the stream: the peer's close or a failure. -/
def endsStream : Incoming → Bool
  | .data _ => false
  | _ => true

/-- Steps the inbox can still cost a handler: two per pending byte and per chunk (a
`Read` and a `Write`), one per other event. -/
def inboxWork : List Incoming → Nat
  | [] => 0
  | .data bs :: rest => 2 * bs.length + 2 + inboxWork rest
  | _ :: rest => 1 + inboxWork rest

/-- A number of steps within which a handler started on `inbox` has returned,
provided the inbox holds an event that ends the stream. -/
def stepBound (inbox : List Incoming) : Nat :=
  inboxWork inbox + 2

/-- Steps a handler can still take before it has returned. -/
def work (h : Handler) : Nat :=
  match h.pc with
  | .done => 0
  | .copying (.returned _ _) => 1
  | .copying (.reading _) => inboxWork h.conn.inbox + 2
  | .copying (.writing _ _ _) => inboxWork h.conn.inbox + 3

/-- While the relay runs, the stream still holds an event that will end it. -/
def live (h : Handler) : Prop :=
  match h.pc with
  | .copying (.reading _) => h.conn.inbox.any endsStream = true
  | .copying (.writing _ _ _) => h.conn.inbox.any endsStream = true
  | _ => True

/-- The inbox of a connection on which the peer sends the given chunks and then
closes its sending side. -/
def cleanInbox (chunks : List (List Byte)) : List Incoming :=
  chunks.map .data ++ [.eof]

/-- Invariant of a handler on a connection whose peer sends chunks and then closes:
while the relay runs the inbox keeps that shape, and a relay that ended without an
error has consumed every chunk. -/
def Clean (h : Handler) : Prop :=
  match h.pc with
  | .copying (.reading _) => ∃ chunks, h.conn.inbox = cleanInbox chunks
  | .copying (.writing _ _ _) => ∃ chunks, h.conn.inbox = cleanInbox chunks
  | .copying (.returned _ err) => err = none → allData h.conn.inbox = []
  | .done => noFail h.conn.ops → allData h.conn.inbox = []

/-- Invariant of a handler whose remaining writes all succeed, or whose peer sends
no byte at all (`S = []`): the relay ends without an error. -/
def Healthy (S : List Byte) (h : Handler) : Prop :=
  match h.pc with
  | .copying (.reading _) => (∀ o ∈ h.conn.wplan, o = WriteOutcome.ok) ∨ S = []
  | .copying (.writing _ _ _) => (∀ o ∈ h.conn.wplan, o = WriteOutcome.ok) ∨ S = []
  | .copying (.returned _ err) => err = none
  | .done => noFail h.conn.ops

/-- The actions of the accept loop: an `Accept` call, the start of a handler, the
line logged for a failed accept. -/
def loopAction : Action → Bool
  | .accept => true
  | .go _ => true
  | .println [.str _, .err _] => true
  | _ => false

/-- The connections that the `Accept` calls of a schedule return, in order. -/
def accepted (sched : List Event) : List Conn :=
  sched.filterMap fun ev =>
    match ev with
    | .accept (.conn inbox wplan) => some (Conn.fresh inbox wplan)
    | _ => none

/-- The event is an iteration of the accept loop. -/
def Event.isAccept : Event → Bool
  | .accept _ => true
  | _ => false

/-- The process once `net.Listen` has succeeded. -/
def bound : Sys :=
  sysStep boot (.listen none)

/-- The handler of a fresh connection with the given inbox and write plan, `n` steps
after it was started. -/
abbrev handlerAfter (n : Nat) (inbox : List Incoming) (wplan : List WriteOutcome) : Handler :=
  runHandler n (Handler.start (Conn.fresh inbox wplan))

/-- What `main` can see of the process: its own control point, its own actions and
how many handlers it has started. -/
def mainView (s : Sys) : MainPC × List Action × Nat :=
  (s.pc, s.trace, s.handlers.length)

/-- What `main` can see of an event: nothing of a handler's step, and of an accepted
connection only that there is one. -/
def Event.forMain : Event → Option Event
  | .handler _ => none
  | .accept (.conn _ _) => some (.accept (.conn [] []))
  | ev => some ev

instance (ops : List ConnOp) : Decidable (noFail ops) := by
  unfold noFail
  infer_instance

/-! ## Records of calls -/

theorem bytesRead_append (a b : List ConnOp) :
    bytesRead (a ++ b) = bytesRead a ++ bytesRead b := by
  induction a with
  | nil => simp [bytesRead]
  | cons op a ih => cases op <;> simp [bytesRead, ih]

theorem bytesWritten_append (a b : List ConnOp) :
    bytesWritten (a ++ b) = bytesWritten a ++ bytesWritten b := by
  induction a with
  | nil => simp [bytesWritten]
  | cons op a ih => cases op <;> simp [bytesWritten, ih]

theorem closeCount_append (a b : List ConnOp) :
    closeCount (a ++ b) = closeCount a + closeCount b := by
  induction a with
  | nil => simp [closeCount]
  | cons op a ih =>
    cases op
    all_goals simp [closeCount, ih]
    omega

theorem noFail_append (a b : List ConnOp) : noFail (a ++ b) ↔ noFail a ∧ noFail b := by
  unfold noFail
  constructor
  · intro h
    exact ⟨fun op ho => h op (List.mem_append_left b ho), fun op ho => h op (List.mem_append_right a ho)⟩
  · rintro ⟨h1, h2⟩ op ho
    rcases List.mem_append.1 ho with ho | ho
    · exact h1 op ho
    · exact h2 op ho

theorem noFail_nil : noFail [] := by
  simp [noFail]

theorem noFail_singleton (op : ConnOp) : noFail [op] ↔ isFailure op = false := by
  simp [noFail]

theorem copyBufSize_pos : 0 < copyBufSize := by
  decide

/-! ## The steps of a handler, case by case -/

theorem handlerStep_done (c : Conn) : handlerStep ⟨.done, c⟩ = ⟨.done, c⟩ := rfl

theorem handlerStep_returned (w : Nat) (err : Option GoError) (c : Conn) :
    handlerStep ⟨.copying (.returned w err), c⟩ = ⟨.done, ⟨c.inbox, c.wplan, c.ops ++ [.close]⟩⟩ := rfl

theorem handlerStep_blocked (w : Nat) (wp : List WriteOutcome) (ops : List ConnOp) :
    handlerStep ⟨.copying (.reading w), ⟨[], wp, ops⟩⟩ = ⟨.copying (.reading w), ⟨[], wp, ops⟩⟩ := rfl

theorem handlerStep_eof (w : Nat) (rest : List Incoming) (wp : List WriteOutcome)
    (ops : List ConnOp) :
    handlerStep ⟨.copying (.reading w), ⟨.eof :: rest, wp, ops⟩⟩
      = ⟨.copying (.returned w none), ⟨.eof :: rest, wp, ops ++ [.read [] (some .EOF)]⟩⟩ := rfl

theorem handlerStep_fail (w : Nat) (e : GoError) (rest : List Incoming)
    (wp : List WriteOutcome) (ops : List ConnOp) :
    handlerStep ⟨.copying (.reading w), ⟨.fail e :: rest, wp, ops⟩⟩
      = ⟨.copying (.returned w (if e = .EOF then none else some e)),
          ⟨rest, wp, ops ++ [.read [] (some e)]⟩⟩ := rfl

theorem handlerStep_data_nil (w : Nat) (rest : List Incoming) (wp : List WriteOutcome)
    (ops : List ConnOp) :
    handlerStep ⟨.copying (.reading w), ⟨.data [] :: rest, wp, ops⟩⟩
      = ⟨.copying (.reading w), ⟨rest, wp, ops ++ [.read [] none]⟩⟩ := rfl

theorem handlerStep_data_fits (w : Nat) (b : Byte) (bs : List Byte) (rest : List Incoming)
    (wp : List WriteOutcome) (ops : List ConnOp) (hfit : (b :: bs).length ≤ copyBufSize) :
    handlerStep ⟨.copying (.reading w), ⟨.data (b :: bs) :: rest, wp, ops⟩⟩
      = ⟨.copying (.writing w (b :: bs) none), ⟨rest, wp, ops ++ [.read (b :: bs) none]⟩⟩ := by
  have hfit2 : bs.length + 1 ≤ copyBufSize := by simpa using hfit
  simp [handlerStep, copyStep, Conn.Read, hfit2]

theorem handlerStep_data_split (w : Nat) (bs : List Byte) (rest : List Incoming)
    (wp : List WriteOutcome) (ops : List ConnOp) (hbig : copyBufSize < bs.length) :
    handlerStep ⟨.copying (.reading w), ⟨.data bs :: rest, wp, ops⟩⟩
      = ⟨.copying (.writing w (bs.take copyBufSize) none),
          ⟨.data (bs.drop copyBufSize) :: rest, wp, ops ++ [.read (bs.take copyBufSize) none]⟩⟩ := by
  have hpos := copyBufSize_pos
  have h1 : ¬ bs.length ≤ copyBufSize := by omega
  have h2 : 0 < bs.length := by omega
  simp [handlerStep, copyStep, Conn.Read, h1, hpos, h2]

/-- The control point a `Write` of `buf` leads to when it returns `(n, err)`. -/
def afterWrite (w : Nat) (buf : List Byte) (er : Option GoError) (n : Nat)
    (err : Option GoError) : CopyPC :=
  if buf.length < n then .returned w (some (err.getD .errInvalidWrite))
  else match err with
    | some e => .returned (w + n) (some e)
    | none => if buf.length ≠ n then .returned (w + n) (some .ErrShortWrite) else afterRead (w + n) er

theorem handlerStep_write_full (w : Nat) (buf : List Byte) (er : Option GoError)
    (inbox : List Incoming) (wp : List WriteOutcome) (ops : List ConnOp)
    (hwp : wp = [] ∨ ∃ rest, wp = .ok :: rest) :
    handlerStep ⟨.copying (.writing w buf er), ⟨inbox, wp, ops⟩⟩
      = ⟨.copying (afterRead (w + buf.length) er),
          ⟨inbox, wp.tail, ops ++ [.write buf buf.length none]⟩⟩ := by
  rcases hwp with rfl | ⟨rest, rfl⟩ <;> simp [handlerStep, copyStep, Conn.Write]

theorem handlerStep_write_returns (w : Nat) (buf : List Byte) (er : Option GoError)
    (inbox : List Incoming) (n : Nat) (err : Option GoError) (rest : List WriteOutcome)
    (ops : List ConnOp) :
    handlerStep ⟨.copying (.writing w buf er), ⟨inbox, .returns n err :: rest, ops⟩⟩
      = ⟨.copying (afterWrite w buf er n err), ⟨inbox, rest, ops ++ [.write buf n err]⟩⟩ := by
  by_cases hlt : buf.length < n
  · cases err <;> simp [handlerStep, copyStep, Conn.Write, afterWrite, hlt]
  · cases err with
    | some e => simp [handlerStep, copyStep, Conn.Write, afterWrite, hlt]
    | none =>
      by_cases hne : buf.length = n
      · simp [handlerStep, copyStep, Conn.Write, afterWrite, hne]
      · simp [handlerStep, copyStep, Conn.Write, afterWrite, hlt, hne]

/-! ## What holds at every point of every handler run -/

/-- How the record of calls of a finished relay looks when `io.Copy` returned `err`:
with `nil`, no call failed, everything read was written and the last call is the
`Read` that met end-of-stream; with an error, the last call is the one that failed
and it is the only one. -/
def Ended (err : Option GoError) (ops : List ConnOp) : Prop :=
  match err with
  | none =>
    noFail ops ∧ bytesWritten ops = bytesRead ops ∧ ∃ pre, ops = pre ++ [.read [] (some .EOF)]
  | some _ => ∃ pre op, ops = pre ++ [op] ∧ isFailure op = true ∧ noFail pre

/-- The invariant of a handler whose peer was to send the bytes `S` in all. -/
def HInv (S : List Byte) (h : Handler) : Prop :=
  bytesRead h.conn.ops ++ allData h.conn.inbox = S ∧
  match h.pc with
  | .copying (.reading _) =>
    bytesWritten h.conn.ops = bytesRead h.conn.ops ∧ closeCount h.conn.ops = 0 ∧
      noFail h.conn.ops
  | .copying (.writing _ buf er) =>
    bytesRead h.conn.ops = bytesWritten h.conn.ops ++ buf ∧ closeCount h.conn.ops = 0 ∧
      noFail h.conn.ops ∧ er = none ∧ buf ≠ []
  | .copying (.returned _ err) =>
    bytesWritten h.conn.ops <+: bytesRead h.conn.ops ∧ closeCount h.conn.ops = 0 ∧
      Ended err h.conn.ops
  | .done =>
    ∃ pre err, h.conn.ops = pre ++ [.close] ∧ bytesWritten pre <+: bytesRead pre ∧
      closeCount pre = 0 ∧ Ended err pre

theorem HInv_start (inbox : List Incoming) (wp : List WriteOutcome) :
    HInv (allData inbox) (Handler.start (Conn.fresh inbox wp)) := by
  simp [HInv, Handler.start, Conn.fresh, bytesRead, bytesWritten, closeCount, noFail_nil]

theorem HInv_write (S : List Byte) (w : Nat) (buf : List Byte) (inbox : List Incoming)
    (wp : List WriteOutcome) (ops : List ConnOp) (n : Nat) (err : Option GoError)
    (hS : bytesRead ops ++ allData inbox = S)
    (hR : bytesRead ops = bytesWritten ops ++ buf) (hC : closeCount ops = 0)
    (hF : noFail ops) :
    HInv S ⟨.copying (afterWrite w buf none n err), ⟨inbox, wp, ops ++ [.write buf n err]⟩⟩ := by
  have hR1 : bytesRead (ops ++ [.write buf n err]) = bytesRead ops := by
    simp [bytesRead_append, bytesRead]
  have hW1 : bytesWritten (ops ++ [.write buf n err]) = bytesWritten ops ++ buf.take n := by
    simp [bytesWritten_append, bytesWritten]
  have hC1 : closeCount (ops ++ [.write buf n err]) = 0 := by
    simp [closeCount_append, closeCount, hC]
  have hpre : bytesWritten ops ++ buf.take n <+: bytesWritten ops ++ buf :=
    (List.prefix_append_right_inj _).2 (List.take_prefix n buf)
  refine ⟨by simpa [hR1] using hS, ?_⟩
  unfold afterWrite
  by_cases hlt : buf.length < n
  · simp only [hlt, if_true]
    refine ⟨by rw [hR1, hW1, hR]; exact hpre, hC1, ops, _, rfl, ?_, hF⟩
    have : n ≠ buf.length := by omega
    simp [isFailure, this]
  · simp only [hlt, if_false]
    cases err with
    | some e =>
      exact ⟨by rw [hR1, hW1, hR]; exact hpre, hC1, ops, _, rfl, by simp [isFailure], hF⟩
    | none =>
      by_cases hne : buf.length = n
      · have hfull : buf.take n = buf := by rw [← hne]; exact List.take_length buf
        simp only [hne, ne_eq, not_true_eq_false, if_false, afterRead]
        refine ⟨by rw [hR1, hW1, hR, hfull], hC1, ?_⟩
        rw [noFail_append, noFail_singleton]
        exact ⟨hF, by simp [isFailure, hne]⟩
      · simp only [ne_eq, hne, not_false_eq_true, if_true]
        refine ⟨by rw [hR1, hW1, hR]; exact hpre, hC1, ops, _, rfl, ?_, hF⟩
        have : ¬ n = buf.length := fun h => hne h.symm
        simp [isFailure, this]

theorem HInv_step (S : List Byte) (h : Handler) (hI : HInv S h) : HInv S (handlerStep h) := by
  obtain ⟨pc, inbox, wp, ops⟩ := h
  cases pc with
  | done => exact hI
  | copying k =>
    cases k with
    | returned w err =>
      obtain ⟨hS, hP, hC, hE⟩ := hI
      rw [handlerStep_returned]
      refine ⟨?_, ops, err, rfl, hP, hC, hE⟩
      simpa [bytesRead_append, bytesRead] using hS
    | writing w buf er =>
      obtain ⟨hS, hR, hC, hF, rfl, _⟩ := hI
      simp only at hS hR hC hF
      match wp with
      | [] =>
        rw [handlerStep_write_full _ _ _ _ _ _ (Or.inl rfl)]
        have := HInv_write S w buf inbox [] ops buf.length none hS hR hC hF
        simpa [afterWrite] using this
      | .ok :: rest =>
        rw [handlerStep_write_full _ _ _ _ _ _ (Or.inr ⟨rest, rfl⟩)]
        have := HInv_write S w buf inbox rest ops buf.length none hS hR hC hF
        simpa [afterWrite] using this
      | .returns n err :: rest =>
        rw [handlerStep_write_returns]
        exact HInv_write S w buf inbox rest ops n err hS hR hC hF
    | reading w =>
      obtain ⟨hS, hW, hC, hF⟩ := hI
      simp only at hS hW hC hF
      match inbox with
      | [] => exact ⟨hS, hW, hC, hF⟩
      | .eof :: rest =>
        rw [handlerStep_eof]
        have hR1 : bytesRead (ops ++ [.read [] (some .EOF)]) = bytesRead ops := by
          simp [bytesRead_append, bytesRead]
        have hW1 : bytesWritten (ops ++ [.read [] (some .EOF)]) = bytesWritten ops := by
          simp [bytesWritten_append, bytesWritten]
        have hF1 : noFail (ops ++ [.read [] (some .EOF)]) := by
          rw [noFail_append, noFail_singleton]
          exact ⟨hF, by simp [isFailure]⟩
        refine ⟨by simpa [hR1] using hS, ?_, ?_, hF1, ?_, ops, rfl⟩
        · simp only [hR1, hW1, hW]; exact List.prefix_refl _
        · simp [closeCount_append, closeCount, hC]
        · simp only [hR1, hW1, hW]
      | .fail e :: rest =>
        rw [handlerStep_fail]
        have hR1 : bytesRead (ops ++ [.read [] (some e)]) = bytesRead ops := by
          simp [bytesRead_append, bytesRead]
        have hW1 : bytesWritten (ops ++ [.read [] (some e)]) = bytesWritten ops := by
          simp [bytesWritten_append, bytesWritten]
        have hC1 : closeCount (ops ++ [.read [] (some e)]) = 0 := by
          simp [closeCount_append, closeCount, hC]
        refine ⟨by simpa [hR1, allData] using hS, ?_, hC1, ?_⟩
        · simp only [hR1, hW1, hW]; exact List.prefix_refl _
        · by_cases he : e = .EOF
          · subst he
            refine ⟨?_, by simp only [hR1, hW1, hW], ops, rfl⟩
            rw [noFail_append, noFail_singleton]
            exact ⟨hF, by simp [isFailure]⟩
          · simp only [he, if_false]
            exact ⟨ops, _, rfl, by simp [isFailure, he], hF⟩
      | .data [] :: rest =>
        rw [handlerStep_data_nil]
        refine ⟨by simpa [bytesRead_append, bytesRead, allData] using hS, ?_, ?_, ?_⟩
        · simp [bytesRead_append, bytesWritten_append, bytesRead, bytesWritten, hW]
        · simp [closeCount_append, closeCount, hC]
        · rw [noFail_append, noFail_singleton]
          exact ⟨hF, by simp [isFailure]⟩
      | .data (b :: bs) :: rest =>
        by_cases hfit : (b :: bs).length ≤ copyBufSize
        · rw [handlerStep_data_fits _ _ _ _ _ _ hfit]
          refine ⟨by simpa [bytesRead_append, bytesRead, allData] using hS, ?_, ?_, ?_, rfl, ?_⟩
          · simp [bytesRead_append, bytesWritten_append, bytesRead, bytesWritten, hW]
          · simp [closeCount_append, closeCount, hC]
          · rw [noFail_append, noFail_singleton]
            exact ⟨hF, by simp [isFailure]⟩
          · simp
        · have hbig : copyBufSize < (b :: bs).length := by omega
          rw [handlerStep_data_split _ _ _ _ _ hbig]
          have hpos := copyBufSize_pos
          refine ⟨?_, ?_, ?_, ?_, rfl, ?_⟩
          · have := List.take_append_drop copyBufSize (b :: bs)
            simp only [bytesRead_append, bytesRead, allData, List.append_nil, List.append_assoc]
            rw [← List.append_assoc (List.take copyBufSize (b :: bs)), this]
            simpa [allData] using hS
          · simp [bytesRead_append, bytesWritten_append, bytesRead, bytesWritten, hW]
          · simp [closeCount_append, closeCount, hC]
          · rw [noFail_append, noFail_singleton]
            exact ⟨hF, by simp [isFailure]⟩
          · intro hnil
            have hlen := congrArg List.length hnil
            simp [List.length_take] at hlen
            omega

theorem runHandler_succ (n : Nat) (h : Handler) :
    runHandler (n + 1) h = handlerStep (runHandler n h) := by
  induction n generalizing h with
  | zero => rfl
  | succ n ih => exact ih (handlerStep h)

theorem runHandler_add (m n : Nat) (h : Handler) :
    runHandler (m + n) h = runHandler n (runHandler m h) := by
  induction m generalizing h with
  | zero => simp [runHandler]
  | succ m ih =>
    have : m + 1 + n = (m + n) + 1 := by omega
    rw [this]
    exact ih (handlerStep h)

theorem HInv_run (S : List Byte) (n : Nat) (h : Handler) (hI : HInv S h) :
    HInv S (runHandler n h) := by
  induction n generalizing h with
  | zero => exact hI
  | succ n ih => exact ih _ (HInv_step S h hI)

/-! ## Termination of a handler -/

theorem work_afterRead_lt (w : Nat) (er : Option GoError) (c : Conn) :
    work ⟨.copying (afterRead w er), c⟩ < inboxWork c.inbox + 3 := by
  cases er <;> simp [afterRead, work]

theorem live_afterRead (w : Nat) (er : Option GoError) (c : Conn)
    (hl : c.inbox.any endsStream = true) : live ⟨.copying (afterRead w er), c⟩ := by
  cases er
  · exact hl
  · trivial

theorem work_afterWrite_lt (w : Nat) (buf : List Byte) (er : Option GoError) (n : Nat)
    (err : Option GoError) (c : Conn) :
    work ⟨.copying (afterWrite w buf er n err), c⟩ < inboxWork c.inbox + 3 := by
  unfold afterWrite
  split
  · simp [work]
  · split
    · simp [work]
    · split
      · simp [work]
      · exact work_afterRead_lt _ _ _

theorem live_afterWrite (w : Nat) (buf : List Byte) (er : Option GoError) (n : Nat)
    (err : Option GoError) (c : Conn) (hl : c.inbox.any endsStream = true) :
    live ⟨.copying (afterWrite w buf er n err), c⟩ := by
  unfold afterWrite
  split
  · trivial
  · split
    · trivial
    · split
      · trivial
      · exact live_afterRead _ _ _ hl

theorem progress (h : Handler) (hl : live h) (hpc : h.pc ≠ .done) :
    live (handlerStep h) ∧ work (handlerStep h) < work h := by
  obtain ⟨pc, inbox, wp, ops⟩ := h
  cases pc with
  | done => exact absurd rfl hpc
  | copying k =>
    cases k with
    | returned w err =>
      rw [handlerStep_returned]
      exact ⟨trivial, by simp [work]⟩
    | writing w buf er =>
      have hl1 : inbox.any endsStream = true := hl
      match wp with
      | [] =>
        rw [handlerStep_write_full _ _ _ _ _ _ (Or.inl rfl)]
        exact ⟨live_afterRead _ _ _ hl1, work_afterRead_lt _ _ _⟩
      | .ok :: rest =>
        rw [handlerStep_write_full _ _ _ _ _ _ (Or.inr ⟨rest, rfl⟩)]
        exact ⟨live_afterRead _ _ _ hl1, work_afterRead_lt _ _ _⟩
      | .returns n err :: rest =>
        rw [handlerStep_write_returns]
        exact ⟨live_afterWrite _ _ _ _ _ _ hl1, work_afterWrite_lt _ _ _ _ _ _⟩
    | reading w =>
      have hl1 : inbox.any endsStream = true := hl
      match inbox with
      | [] => simp at hl1
      | .eof :: rest =>
        rw [handlerStep_eof]
        exact ⟨trivial, by simp [work]⟩
      | .fail e :: rest =>
        rw [handlerStep_fail]
        exact ⟨trivial, by simp [work]⟩
      | .data [] :: rest =>
        rw [handlerStep_data_nil]
        have hl2 : rest.any endsStream = true := by simpa [endsStream] using hl1
        exact ⟨hl2, by simp [work, inboxWork]⟩
      | .data (b :: bs) :: rest =>
        have hl2 : rest.any endsStream = true := by simpa [endsStream] using hl1
        by_cases hfit : (b :: bs).length ≤ copyBufSize
        · rw [handlerStep_data_fits _ _ _ _ _ _ hfit]
          refine ⟨hl2, ?_⟩
          simp [work, inboxWork]
          omega
        · have hbig : copyBufSize < (b :: bs).length := by omega
          rw [handlerStep_data_split _ _ _ _ _ hbig]
          have hpos := copyBufSize_pos
          refine ⟨by simpa [live, endsStream] using hl2, ?_⟩
          simp only [work, inboxWork, List.length_drop]
          omega

theorem runHandler_done (n : Nat) (h : Handler) (hpc : h.pc = .done) : runHandler n h = h := by
  induction n with
  | zero => rfl
  | succ n ih =>
    obtain ⟨pc, c⟩ := h
    simp only at hpc
    subst hpc
    simpa [runHandler, handlerStep_done] using ih

theorem run_reaches_done (n : Nat) (h : Handler) (hl : live h) (hw : work h ≤ n) :
    (runHandler n h).pc = .done := by
  induction n generalizing h with
  | zero =>
    obtain ⟨pc, c⟩ := h
    cases pc with
    | done => rfl
    | copying k => cases k <;> simp [work] at hw
  | succ n ih =>
    by_cases hpc : h.pc = .done
    · rw [runHandler_done _ _ hpc]; exact hpc
    · obtain ⟨hl1, hw1⟩ := progress h hl hpc
      exact ih _ hl1 (by omega)

theorem start_reaches_done (inbox : List Incoming) (wp : List WriteOutcome) (n : Nat)
    (hend : inbox.any endsStream = true) (hn : stepBound inbox ≤ n) :
    (runHandler n (Handler.start (Conn.fresh inbox wp))).pc = .done :=
  run_reaches_done n _ hend hn

/-! ## A peer that sends chunks and then closes -/

theorem allData_cleanInbox (chunks : List (List Byte)) :
    allData (cleanInbox chunks) = chunks.flatten := by
  induction chunks with
  | nil => rfl
  | cons c cs ih =>
    have : cleanInbox (c :: cs) = .data c :: cleanInbox cs := rfl
    rw [this, allData, ih, List.flatten_cons]

theorem cleanInbox_ends (chunks : List (List Byte)) :
    (cleanInbox chunks).any endsStream = true := by
  simp [cleanInbox, endsStream]

theorem failure_of_Ended_some (e : GoError) (ops : List ConnOp) (hE : Ended (some e) ops) :
    ¬ noFail ops := by
  obtain ⟨pre, op, rfl, hop, _⟩ := hE
  intro hF
  have := hF op (by simp)
  rw [hop] at this
  exact Bool.noConfusion this

theorem Clean_step (S : List Byte) (h : Handler) (hI : HInv S h) (hC : Clean h) :
    Clean (handlerStep h) := by
  obtain ⟨pc, inbox, wp, ops⟩ := h
  cases pc with
  | done => exact hC
  | copying k =>
    cases k with
    | returned w err =>
      rw [handlerStep_returned]
      intro hF
      obtain ⟨_, _, _, hE⟩ := hI
      have hF1 : noFail ops := ((noFail_append _ _).1 hF).1
      cases err with
      | none => exact hC rfl
      | some e => exact absurd hF1 (failure_of_Ended_some e ops hE)
    | writing w buf er =>
      obtain ⟨_, _, _, _, rfl, _⟩ := hI
      have hC1 : ∃ chunks, inbox = cleanInbox chunks := hC
      match wp with
      | [] =>
        rw [handlerStep_write_full _ _ _ _ _ _ (Or.inl rfl)]
        exact hC1
      | .ok :: rest =>
        rw [handlerStep_write_full _ _ _ _ _ _ (Or.inr ⟨rest, rfl⟩)]
        exact hC1
      | .returns n err :: rest =>
        rw [handlerStep_write_returns]
        unfold afterWrite
        split
        · intro hn; cases hn
        · split
          · intro hn; cases hn
          · split
            · intro hn; cases hn
            · exact hC1
    | reading w =>
      obtain ⟨chunks, hin⟩ := hC
      simp only at hin
      subst hin
      match chunks with
      | [] =>
        show Clean (handlerStep ⟨_, ⟨.eof :: [], wp, ops⟩⟩)
        rw [handlerStep_eof]
        intro _
        rfl
      | [] :: cs =>
        show Clean (handlerStep ⟨_, ⟨.data [] :: cleanInbox cs, wp, ops⟩⟩)
        rw [handlerStep_data_nil]
        exact ⟨cs, rfl⟩
      | (b :: bs) :: cs =>
        show Clean (handlerStep ⟨_, ⟨.data (b :: bs) :: cleanInbox cs, wp, ops⟩⟩)
        by_cases hfit : (b :: bs).length ≤ copyBufSize
        · rw [handlerStep_data_fits _ _ _ _ _ _ hfit]
          exact ⟨cs, rfl⟩
        · have hbig : copyBufSize < (b :: bs).length := by omega
          rw [handlerStep_data_split _ _ _ _ _ hbig]
          exact ⟨(b :: bs).drop copyBufSize :: cs, rfl⟩

theorem Healthy_step (S : List Byte) (h : Handler) (hI : HInv S h) (hC : Clean h)
    (hH : Healthy S h) : Healthy S (handlerStep h) := by
  obtain ⟨pc, inbox, wp, ops⟩ := h
  cases pc with
  | done => exact hH
  | copying k =>
    cases k with
    | returned w err =>
      rw [handlerStep_returned]
      obtain ⟨_, _, _, hE⟩ := hI
      have herr : err = none := hH
      subst herr
      show noFail (ops ++ [.close])
      rw [noFail_append, noFail_singleton]
      exact ⟨hE.1, rfl⟩
    | writing w buf er =>
      obtain ⟨hS, hR, _, _, rfl, hbuf⟩ := hI
      simp only at hS hR
      have hH1 : (∀ o ∈ wp, o = WriteOutcome.ok) ∨ S = [] := hH
      have hwp : ∀ o ∈ wp, o = WriteOutcome.ok := by
        rcases hH1 with hwp | hS0
        · exact hwp
        · exfalso
          rw [hR, hS0] at hS
          simp at hS
          exact hbuf hS.2.1
      match wp with
      | [] =>
        rw [handlerStep_write_full _ _ _ _ _ _ (Or.inl rfl)]
        exact Or.inl hwp
      | .ok :: rest =>
        rw [handlerStep_write_full _ _ _ _ _ _ (Or.inr ⟨rest, rfl⟩)]
        exact Or.inl (fun o ho => hwp o (List.mem_cons_of_mem _ ho))
      | .returns n err :: rest =>
        have := hwp (.returns n err) (by simp)
        cases this
    | reading w =>
      obtain ⟨chunks, hin⟩ := hC
      simp only at hin
      subst hin
      have hH1 : (∀ o ∈ wp, o = WriteOutcome.ok) ∨ S = [] := hH
      match chunks with
      | [] =>
        show Healthy S (handlerStep ⟨_, ⟨.eof :: [], wp, ops⟩⟩)
        rw [handlerStep_eof]
        rfl
      | [] :: cs =>
        show Healthy S (handlerStep ⟨_, ⟨.data [] :: cleanInbox cs, wp, ops⟩⟩)
        rw [handlerStep_data_nil]
        exact hH1
      | (b :: bs) :: cs =>
        show Healthy S (handlerStep ⟨_, ⟨.data (b :: bs) :: cleanInbox cs, wp, ops⟩⟩)
        by_cases hfit : (b :: bs).length ≤ copyBufSize
        · rw [handlerStep_data_fits _ _ _ _ _ _ hfit]
          exact hH1
        · have hbig : copyBufSize < (b :: bs).length := by omega
          rw [handlerStep_data_split _ _ _ _ _ hbig]
          exact hH1

theorem Clean_run (S : List Byte) (n : Nat) (h : Handler) (hI : HInv S h) (hC : Clean h) :
    Clean (runHandler n h) := by
  induction n generalizing h with
  | zero => exact hC
  | succ n ih => exact ih _ (HInv_step S h hI) (Clean_step S h hI hC)

theorem Healthy_run (S : List Byte) (n : Nat) (h : Handler) (hI : HInv S h) (hC : Clean h)
    (hH : Healthy S h) : Healthy S (runHandler n h) := by
  induction n generalizing h with
  | zero => exact hH
  | succ n ih =>
    exact ih _ (HInv_step S h hI) (Clean_step S h hI hC) (Healthy_step S h hI hC hH)

/-- What the record of calls of a returned handler looks like. -/
theorem done_shape (S : List Byte) (h : Handler) (hI : HInv S h) (hpc : h.pc = .done) :
    ∃ pre err, h.conn.ops = pre ++ [.close] ∧ bytesWritten pre <+: bytesRead pre ∧
      closeCount pre = 0 ∧ Ended err pre ∧ bytesRead pre ++ allData h.conn.inbox = S := by
  obtain ⟨pc, c⟩ := h
  simp only at hpc
  subst hpc
  obtain ⟨hS, pre, err, hops, hP, hC, hE⟩ := hI
  simp only at hops hS
  refine ⟨pre, err, hops, hP, hC, hE, ?_⟩
  rw [hops] at hS
  simpa [bytesRead_append, bytesRead] using hS

/-! ## The process -/

theorem run_append (s : Sys) (a b : List Event) : run s (a ++ b) = run (run s a) b := by
  simp [run, List.foldl_append]

theorem run_snoc (s : Sys) (sched : List Event) (ev : Event) :
    run s (sched ++ [ev]) = sysStep (run s sched) ev := by
  simp [run, List.foldl_append]

theorem run_cons (s : Sys) (ev : Event) (sched : List Event) :
    run s (ev :: sched) = run (sysStep s ev) sched := rfl

theorem sysStep_exited (s : Sys) (code : Nat) (hs : s.pc = .exited code) (ev : Event) :
    sysStep s ev = s := by
  obtain ⟨pc, tr, hs0⟩ := s
  simp only at hs
  subst hs
  cases ev <;> rfl

theorem run_exited (s : Sys) (code : Nat) (hs : s.pc = .exited code) (sched : List Event) :
    run s sched = s := by
  induction sched with
  | nil => rfl
  | cons ev sched ih => rw [run_cons, sysStep_exited s code hs ev, ih]

theorem sysStep_handler_frame (s : Sys) (i : Nat) :
    (sysStep s (.handler i)).pc = s.pc ∧ (sysStep s (.handler i)).trace = s.trace ∧
      (sysStep s (.handler i)).handlers.length = s.handlers.length ∧
      ∀ j, j ≠ i → (sysStep s (.handler i)).handlers[j]? = s.handlers[j]? := by
  obtain ⟨pc, tr, hs⟩ := s
  cases pc with
  | start => exact ⟨rfl, rfl, rfl, fun _ _ => rfl⟩
  | exited code => exact ⟨rfl, rfl, rfl, fun _ _ => rfl⟩
  | accepting =>
    simp only [sysStep]
    cases hget : hs[i]? with
    | none => exact ⟨rfl, rfl, rfl, fun _ _ => rfl⟩
    | some h =>
      refine ⟨rfl, rfl, by simp, fun j hj => ?_⟩
      exact List.getElem?_set_ne (Ne.symm hj)

theorem sysStep_handler_at (s : Sys) (i : Nat) (h : Handler) (hs : s.pc = .accepting)
    (hget : s.handlers[i]? = some h) :
    (sysStep s (.handler i)).handlers[i]? = some (handlerStep h) := by
  obtain ⟨pc, tr, hds⟩ := s
  simp only at hs hget
  subst hs
  simp only [sysStep, hget]
  have hlt : i < hds.length := (List.getElem?_eq_some.1 hget).1
  exact List.getElem?_set_self hlt

theorem sysStep_accepting (s : Sys) (ev : Event) (hs : s.pc = .accepting) :
    (sysStep s ev).pc = .accepting := by
  obtain ⟨pc, tr, hds⟩ := s
  simp only at hs
  subst hs
  cases ev with
  | listen err => rfl
  | accept r => cases r <;> rfl
  | handler i => exact (sysStep_handler_frame _ i).1

theorem run_accepting (sched : List Event) (s : Sys) (hs : s.pc = .accepting) :
    (run s sched).pc = .accepting := by
  induction sched generalizing s with
  | nil => exact hs
  | cons ev sched ih => exact ih _ (sysStep_accepting s ev hs)

theorem sysStep_accept_err (s : Sys) (e : GoError) (hs : s.pc = .accepting) :
    sysStep s (.accept (.err e))
      = { s with trace := s.trace ++ [.accept, .println [.str "Failed to accept conn.", .err e]] } := by
  obtain ⟨pc, tr, hds⟩ := s
  simp only at hs
  subst hs
  rfl

theorem sysStep_accept_conn (s : Sys) (inbox : List Incoming) (wp : List WriteOutcome)
    (hs : s.pc = .accepting) :
    sysStep s (.accept (.conn inbox wp))
      = { s with
          trace := s.trace ++ [.accept, .go s.handlers.length]
          handlers := s.handlers ++ [Handler.start (Conn.fresh inbox wp)] } := by
  obtain ⟨pc, tr, hds⟩ := s
  simp only at hs
  subst hs
  rfl

theorem sysStep_listen_accepting (s : Sys) (err : Option GoError) (hs : s.pc = .accepting) :
    sysStep s (.listen err) = s := by
  obtain ⟨pc, tr, hds⟩ := s
  simp only at hs
  subst hs
  rfl

theorem bound_eq : bound = ⟨.accepting, [.listen "tcp" addr, readyLine], []⟩ := rfl

/-- In the loop, a step adds only loop actions to the trace, and one `Accept` call
exactly when it is an iteration of the loop. -/
theorem sysStep_trace (s : Sys) (ev : Event) (hs : s.pc = .accepting) :
    ∃ added, (sysStep s ev).trace = s.trace ++ added ∧ (∀ a ∈ added, loopAction a = true) ∧
      added.count .accept = if ev.isAccept then 1 else 0 := by
  cases ev with
  | listen err =>
    rw [sysStep_listen_accepting s err hs]
    exact ⟨[], by simp, by simp, by simp [Event.isAccept]⟩
  | handler i =>
    exact ⟨[], by simp [(sysStep_handler_frame s i).2.1], by simp, by simp [Event.isAccept]⟩
  | accept r =>
    cases r with
    | err e =>
      rw [sysStep_accept_err s e hs]
      exact ⟨_, rfl, by simp [loopAction], by simp [Event.isAccept, List.count_cons]⟩
    | conn inbox wp =>
      rw [sysStep_accept_conn s inbox wp hs]
      exact ⟨_, rfl, by simp [loopAction], by simp [Event.isAccept, List.count_cons]⟩

theorem run_trace (sched : List Event) (s : Sys) (hs : s.pc = .accepting) :
    ∃ added, (run s sched).trace = s.trace ++ added ∧ (∀ a ∈ added, loopAction a = true) ∧
      added.count .accept = sched.countP Event.isAccept := by
  induction sched generalizing s with
  | nil => exact ⟨[], by simp [run], by simp, by simp⟩
  | cons ev sched ih =>
    obtain ⟨a1, h1, hl1, hc1⟩ := sysStep_trace s ev hs
    obtain ⟨a2, h2, hl2, hc2⟩ := ih (sysStep s ev) (sysStep_accepting s ev hs)
    refine ⟨a1 ++ a2, ?_, ?_, ?_⟩
    · rw [run_cons, h2, h1, List.append_assoc]
    · intro a ha
      rcases List.mem_append.1 ha with ha | ha
      · exact hl1 a ha
      · exact hl2 a ha
    · rw [List.count_append, hc1, hc2, List.countP_cons]
      split <;> simp_all
      omega

/-- Every handler of the process is a handler run on its own accepted connection. -/
theorem handlers_isolated (sched : List Event) :
    (run bound sched).handlers.length = (accepted sched).length ∧
      ∀ (i : Nat) (h : Handler), (run bound sched).handlers[i]? = some h →
        ∃ (c : Conn) (k : Nat), (accepted sched)[i]? = some c ∧
          h = runHandler k (Handler.start c) := by
  induction sched using List.reverseRecOn with
  | nil => exact ⟨rfl, fun i h hget => by simp [run, bound_eq] at hget⟩
  | append_singleton sched ev ih =>
    obtain ⟨hlen, hall⟩ := ih
    have hacc : (run bound sched).pc = .accepting := run_accepting sched bound rfl
    rw [run_snoc]
    cases ev with
    | listen err =>
      rw [sysStep_listen_accepting _ err hacc]
      have : accepted (sched ++ [.listen err]) = accepted sched := by simp [accepted]
      rw [this]
      exact ⟨hlen, hall⟩
    | handler j =>
      have hfr := sysStep_handler_frame (run bound sched) j
      have : accepted (sched ++ [.handler j]) = accepted sched := by simp [accepted]
      rw [this]
      refine ⟨by rw [hfr.2.2.1, hlen], fun i h hget => ?_⟩
      by_cases hij : i = j
      · subst hij
        cases hold : (run bound sched).handlers[i]? with
        | none =>
          have hle : (run bound sched).handlers.length ≤ i := List.getElem?_eq_none_iff.1 hold
          have hlt : i < (sysStep (run bound sched) (.handler i)).handlers.length :=
            (List.getElem?_eq_some.1 hget).1
          rw [hfr.2.2.1] at hlt
          omega
        | some h0 =>
          obtain ⟨c, k, hc, hk⟩ := hall i h0 hold
          rw [sysStep_handler_at _ i h0 hacc hold] at hget
          refine ⟨c, k + 1, hc, ?_⟩
          rw [runHandler_succ, ← hk]
          exact (Option.some.inj hget).symm
      · rw [hfr.2.2.2 i hij] at hget
        exact hall i h hget
    | accept r =>
      cases r with
      | err e =>
        rw [sysStep_accept_err _ e hacc]
        have : accepted (sched ++ [.accept (.err e)]) = accepted sched := by simp [accepted]
        rw [this]
        exact ⟨hlen, hall⟩
      | conn inbox wp =>
        rw [sysStep_accept_conn _ inbox wp hacc]
        have : accepted (sched ++ [.accept (.conn inbox wp)])
            = accepted sched ++ [Conn.fresh inbox wp] := by simp [accepted]
        rw [this]
        refine ⟨by simp [hlen], fun i h hget => ?_⟩
        simp only at hget
        by_cases hlt : i < (run bound sched).handlers.length
        · rw [List.getElem?_append_left hlt] at hget
          obtain ⟨c, k, hc, hk⟩ := hall i h hget
          exact ⟨c, k, by rw [List.getElem?_append_left (by omega)]; exact hc, hk⟩
        · have hle : (run bound sched).handlers.length ≤ i := by omega
          rw [List.getElem?_append_right hle] at hget
          have hi : i - (run bound sched).handlers.length = 0 := by
            by_contra hne
            have hnone : [Handler.start (Conn.fresh inbox wp)][i - (run bound sched).handlers.length]? = none :=
              List.getElem?_eq_none (by simp; omega)
            rw [hnone] at hget
            cases hget
          rw [hi] at hget
          refine ⟨Conn.fresh inbox wp, 0, ?_, ?_⟩
          · rw [List.getElem?_append_right (by omega)]
            have : i - (accepted sched).length = 0 := by omega
            rw [this]
            rfl
          · exact (Option.some.inj hget).symm

/-! ## Shared facts about whole runs -/

theorem HInv_fresh_run (inbox : List Incoming) (wp : List WriteOutcome) (n : Nat) :
    HInv (allData inbox) (runHandler n (Handler.start (Conn.fresh inbox wp))) :=
  HInv_run _ n _ (HInv_start inbox wp)

theorem HInv_written_read (S : List Byte) (h : Handler) (hI : HInv S h) :
    bytesWritten h.conn.ops <+: bytesRead h.conn.ops ∧ bytesRead h.conn.ops <+: S := by
  obtain ⟨pc, inbox, wp, ops⟩ := h
  have hS : bytesRead ops ++ allData inbox = S := hI.1
  refine ⟨?_, ⟨allData inbox, hS⟩⟩
  cases pc with
  | done =>
    obtain ⟨_, pre, err, hops, hP, _, _⟩ := hI
    simp only at hops
    subst hops
    simpa [bytesRead_append, bytesWritten_append, bytesRead, bytesWritten] using hP
  | copying k =>
    cases k with
    | reading w =>
      obtain ⟨_, hW, _, _⟩ := hI
      simp only at hW
      rw [hW]
    | writing w buf er =>
      obtain ⟨_, hR, _, _, _, _⟩ := hI
      simp only at hR
      rw [hR]
      exact List.prefix_append _ _
    | returned w err => exact hI.2.1

theorem HInv_closeCount (S : List Byte) (h : Handler) (hI : HInv S h) :
    (h.pc = .done → ∃ pre, h.conn.ops = pre ++ [.close] ∧ closeCount pre = 0) ∧
      (h.pc ≠ .done → closeCount h.conn.ops = 0) := by
  obtain ⟨pc, inbox, wp, ops⟩ := h
  cases pc with
  | done =>
    obtain ⟨_, pre, err, hops, _, hC, _⟩ := hI
    exact ⟨fun _ => ⟨pre, hops, hC⟩, fun hne => absurd rfl hne⟩
  | copying k =>
    refine ⟨fun hd => ?_, fun _ => ?_⟩
    · cases hd
    cases k with
    | reading w => exact hI.2.2.1
    | writing w buf er => exact hI.2.2.1
    | returned w err => exact hI.2.2.1

/-- The run of a handler on a connection whose peer sends `chunks` and then closes,
once `stepBound` steps have passed. -/
theorem clean_run (chunks : List (List Byte)) (wp : List WriteOutcome) (n : Nat)
    (hn : stepBound (cleanInbox chunks) ≤ n) :
    (runHandler n (Handler.start (Conn.fresh (cleanInbox chunks) wp))).pc = .done ∧
      ∃ pre err,
        (runHandler n (Handler.start (Conn.fresh (cleanInbox chunks) wp))).conn.ops
            = pre ++ [.close] ∧
          closeCount pre = 0 ∧ bytesWritten pre <+: bytesRead pre ∧ Ended err pre ∧
          bytesRead pre <+: chunks.flatten ∧
          (noFail pre → err = none ∧ bytesRead pre = chunks.flatten) ∧
          (((∀ o ∈ wp, o = WriteOutcome.ok) ∨ chunks.flatten = []) → noFail pre) := by
  have hI := HInv_fresh_run (cleanInbox chunks) wp n
  rw [allData_cleanInbox] at hI
  have hC : Clean (runHandler n (Handler.start (Conn.fresh (cleanInbox chunks) wp))) :=
    Clean_run _ n _ (HInv_start _ wp) ⟨chunks, rfl⟩
  have hd := start_reaches_done (cleanInbox chunks) wp n (cleanInbox_ends chunks) hn
  refine ⟨hd, ?_⟩
  obtain ⟨pre, err, hops, hP, hcc, hE, hS⟩ := done_shape _ _ hI hd
  refine ⟨pre, err, hops, hcc, hP, hE, ⟨_, hS⟩, ?_, ?_⟩
  · intro hF
    have herr : err = none := by
      cases err with
      | none => rfl
      | some e => exact absurd hF (failure_of_Ended_some e pre hE)
    refine ⟨herr, ?_⟩
    generalize runHandler n (Handler.start (Conn.fresh (cleanInbox chunks) wp)) = h at *
    obtain ⟨pc, c⟩ := h
    simp only at hd hops
    subst hd
    have hF2 : noFail c.ops := by
      rw [hops, noFail_append, noFail_singleton]
      exact ⟨hF, rfl⟩
    have h0 : allData c.inbox = [] := hC hF2
    simpa [h0] using hS
  · intro hyp
    have hH : Healthy chunks.flatten
        (runHandler n (Handler.start (Conn.fresh (cleanInbox chunks) wp))) := by
      have hI0 := HInv_start (cleanInbox chunks) wp
      rw [allData_cleanInbox] at hI0
      exact Healthy_run _ n _ hI0 ⟨chunks, rfl⟩ hyp
    generalize runHandler n (Handler.start (Conn.fresh (cleanInbox chunks) wp)) = h at *
    obtain ⟨pc, c⟩ := h
    simp only at hd hops
    subst hd
    have hF2 : noFail c.ops := hH
    rw [hops, noFail_append] at hF2
    exact hF2.1

theorem closes_once_of_HInv (S : List Byte) (h : Handler) (hI : HInv S h) :
    closeCount h.conn.ops ≤ 1 ∧ (h.pc = .done ↔ closeCount h.conn.ops = 1) ∧
      (h.pc = .done → ∃ pre, h.conn.ops = pre ++ [.close] ∧ closeCount pre = 0) ∧
      (∀ w err, h.pc = .copying (.returned w err) →
        (handlerStep h).pc = .done ∧ (handlerStep h).conn.ops = h.conn.ops ++ [.close]) := by
  have hcc := HInv_closeCount _ _ hI
  by_cases hd : h.pc = .done
  · obtain ⟨pre, hops, hpre⟩ := hcc.1 hd
    have h1 : closeCount h.conn.ops = 1 := by
      rw [hops, closeCount_append, hpre]; rfl
    refine ⟨by omega, ⟨fun _ => h1, fun _ => hd⟩, fun _ => ⟨pre, hops, hpre⟩, ?_⟩
    intro w err hpc
    rw [hd] at hpc
    cases hpc
  · have h0 := hcc.2 hd
    refine ⟨by omega, ⟨fun hd1 => absurd hd1 hd, fun h1 => by omega⟩, fun hd1 => absurd hd1 hd,
      ?_⟩
    intro w err hpc
    obtain ⟨pc, c⟩ := h
    simp only at hpc
    subst hpc
    exact ⟨rfl, rfl⟩

/-! ## The claims -/

/-- C1: for every finite sequence of chunks a client sends on one connection,
followed by end-of-stream, the handler returns within `stepBound` steps, and if no
`Read` or `Write` on the connection failed, the bytes it wrote back are the bytes it
read, which are the chunks concatenated: same bytes, same order. No call fails when
every write outcome is a success. -/
theorem echo_round_trip (chunks : List (List Byte)) (wp : List WriteOutcome) (n : Nat)
    (hn : stepBound (cleanInbox chunks) ≤ n) :
    (handlerAfter n (cleanInbox chunks) wp).pc = .done ∧
      (noFail (handlerAfter n (cleanInbox chunks) wp).conn.ops →
        bytesWritten (handlerAfter n (cleanInbox chunks) wp).conn.ops
            = bytesRead (handlerAfter n (cleanInbox chunks) wp).conn.ops ∧
          bytesRead (handlerAfter n (cleanInbox chunks) wp).conn.ops
            = chunks.flatten) ∧
      ((∀ o ∈ wp, o = WriteOutcome.ok) →
        noFail (handlerAfter n (cleanInbox chunks) wp).conn.ops) := by
  obtain ⟨hd, pre, err, hops, _, _, hE, _, hclean, hok⟩ := clean_run chunks wp n hn
  refine ⟨hd, ?_, ?_⟩
  · intro hF
    rw [hops] at hF ⊢
    have hFpre : noFail pre := ((noFail_append _ _).1 hF).1
    obtain ⟨rfl, hR⟩ := hclean hFpre
    have hWR : bytesWritten pre = bytesRead pre := hE.2.1
    simp [bytesRead_append, bytesWritten_append, bytesRead, bytesWritten, hWR, hR]
  · intro hwp
    rw [hops, noFail_append, noFail_singleton]
    exact ⟨hok (Or.inl hwp), rfl⟩

theorem echo_round_trip_witness :
    stepBound (cleanInbox [[104, 105], [], [33]]) ≤ 16 ∧
      bytesWritten (handlerAfter 16 (cleanInbox [[104, 105], [], [33]]) []).conn.ops
        = [104, 105, 33] := by
  have h := echo_round_trip [[104, 105], [], [33]] [] 16 (by decide)
  have hF := h.2.2 (by intro o ho; cases ho)
  have h2 := h.2.1 hF
  exact ⟨by decide, h2.1.trans h2.2⟩

/-- C2: at every point of every run of a handler, `Close` has been called on its
connection at most once; it has been called exactly once precisely when the handler
has returned, and then it is the last call on the connection, after every `Read` and
`Write` of the relay. Once the relay has ended, whatever `io.Copy` returned, the next
step is that `Close`; and when the stream holds an end-of-stream or a failure the
handler has returned within `stepBound` steps. -/
theorem handler_closes_once (inbox : List Incoming) (wp : List WriteOutcome) (n : Nat) :
    closeCount (handlerAfter n inbox wp).conn.ops ≤ 1 ∧
      ((handlerAfter n inbox wp).pc = .done ↔
        closeCount (handlerAfter n inbox wp).conn.ops = 1) ∧
      ((handlerAfter n inbox wp).pc = .done →
        ∃ pre, (handlerAfter n inbox wp).conn.ops = pre ++ [.close] ∧
          closeCount pre = 0) ∧
      (∀ w err, (handlerAfter n inbox wp).pc = .copying (.returned w err) →
        (handlerAfter (n + 1) inbox wp).pc = .done ∧
          (handlerAfter (n + 1) inbox wp).conn.ops
            = (handlerAfter n inbox wp).conn.ops ++ [.close]) ∧
      (inbox.any endsStream = true → stepBound inbox ≤ n →
        (handlerAfter n inbox wp).pc = .done) := by
  have hsucc : handlerAfter (n + 1) inbox wp = handlerStep (handlerAfter n inbox wp) :=
    runHandler_succ n _
  have hall := closes_once_of_HInv _ _ (HInv_fresh_run inbox wp n)
  rw [hsucc]
  exact ⟨hall.1, hall.2.1, hall.2.2.1, hall.2.2.2,
    fun he hb => start_reaches_done inbox wp n he hb⟩

theorem handler_closes_once_witness :
    closeCount (handlerAfter 7 [.data [7], .eof] []).conn.ops = 1 ∧
      closeCount (handlerAfter 3 [.fail (.sys 104)] []).conn.ops = 1 ∧
      closeCount (handlerAfter 3 [.data [7]] [.returns 0 (some (.sys 32))]).conn.ops = 1 :=
  ⟨(handler_closes_once [.data [7], .eof] [] 7).2.1.1
      ((handler_closes_once [.data [7], .eof] [] 7).2.2.2.2 (by decide) (by decide)),
    (handler_closes_once [.fail (.sys 104)] [] 3).2.1.1
      ((handler_closes_once [.fail (.sys 104)] [] 3).2.2.2.2 (by decide) (by decide)),
    (handler_closes_once [.data [7]] [.returns 0 (some (.sys 32))] 3).2.1.1
      ((handler_closes_once [.data [7]] [.returns 0 (some (.sys 32))] 2).2.2.2.1 0
        (some (.sys 32)) (by decide)).1⟩

/-- C6: at every point of every run of a handler, including runs that end in a read
or write error, the bytes written so far to the connection are a leading part of the
bytes read so far from it, and those are a leading part of what the peer sent: the
server never sends a byte that the client did not send first. -/
theorem written_within_read (inbox : List Incoming) (wp : List WriteOutcome) (n : Nat) :
    bytesWritten (handlerAfter n inbox wp).conn.ops
        <+: bytesRead (handlerAfter n inbox wp).conn.ops ∧
      bytesRead (handlerAfter n inbox wp).conn.ops
        <+: allData inbox :=
  HInv_written_read _ _ (HInv_fresh_run inbox wp n)

theorem written_within_read_witness :
    bytesWritten (handlerAfter 2 [.data [1, 2, 3]] [.returns 2 none]).conn.ops = [1, 2] ∧
      bytesRead (handlerAfter 2 [.data [1, 2, 3]] [.returns 2 none]).conn.ops = [1, 2, 3] ∧
      bytesWritten (handlerAfter 2 [.data [1, 2, 3]] [.returns 2 none]).conn.ops
        <+: bytesRead (handlerAfter 2 [.data [1, 2, 3]] [.returns 2 none]).conn.ops :=
  ⟨by decide, by decide, (written_within_read [.data [1, 2, 3]] [.returns 2 none] 2).1⟩

theorem run_handler_only (n : Nat) (s : Sys) (i : Nat) (h : Handler) (hs : s.pc = .accepting)
    (hget : s.handlers[i]? = some h) :
    (run s (List.replicate n (.handler i))).trace = s.trace ∧
      (run s (List.replicate n (.handler i))).handlers[i]? = some (runHandler n h) := by
  induction n generalizing s h with
  | zero => exact ⟨rfl, hget⟩
  | succ n ih =>
    rw [List.replicate_succ, run_cons]
    have hfr := sysStep_handler_frame s i
    obtain ⟨h1, h2⟩ := ih (sysStep s (.handler i)) (handlerStep h)
      (sysStep_accepting s _ hs) (sysStep_handler_at s i h hs hget)
    exact ⟨h1.trans hfr.2.1, h2⟩

theorem mainView_step (s t : Sys) (hv : mainView s = mainView t) (ev ev1 : Event)
    (hev : ev.forMain = some ev1) : mainView (sysStep s ev) = mainView (sysStep t ev1) := by
  obtain ⟨pc, tr, hs⟩ := s
  obtain ⟨pc1, tr1, hs1⟩ := t
  simp only [mainView, Prod.mk.injEq] at hv
  obtain ⟨rfl, rfl, hlen⟩ := hv
  cases ev with
  | handler i => cases hev
  | listen err =>
    cases hev
    cases pc <;> cases err <;> simp [sysStep, mainListen, mainView, hlen]
  | accept r =>
    cases r with
    | err e =>
      cases hev
      cases pc <;> simp [sysStep, mainAccept, mainView, hlen]
    | conn inbox wp =>
      cases hev
      cases pc <;> simp [sysStep, mainAccept, mainView, hlen]

theorem mainView_run (sched : List Event) (s t : Sys) (hv : mainView s = mainView t) :
    mainView (run s sched) = mainView (run t (sched.filterMap Event.forMain)) := by
  induction sched generalizing s t with
  | nil => exact hv
  | cons ev sched ih =>
    cases hev : ev.forMain with
    | none =>
      rw [List.filterMap_cons_none hev, run_cons]
      apply ih
      cases ev with
      | handler i =>
        have hfr := sysStep_handler_frame s i
        rw [← hv]
        simp [mainView, hfr.1, hfr.2.1, hfr.2.2.1]
      | listen err => cases hev
      | accept r => cases r <;> cases hev
    | some ev1 =>
      rw [List.filterMap_cons_some hev, run_cons, run_cons]
      exact ih _ _ (mainView_step s t hv ev ev1 hev)

theorem accepted_fresh (sched : List Event) (c : Conn) (hc : c ∈ accepted sched) :
    ∃ inbox wp, c = Conn.fresh inbox wp := by
  unfold accepted at hc
  obtain ⟨ev, _, hev⟩ := List.mem_filterMap.1 hc
  cases ev with
  | handler i => cases hev
  | listen err => cases hev
  | accept r =>
    cases r with
    | err e => cases hev
    | conn inbox wp => exact ⟨inbox, wp, (Option.some.inj hev).symm⟩

/-- C10, as amended: when a connection whose peer sends chunks (possibly none) and then
closes is accepted and its handler is run, the handler returns within `stepBound` steps, has
closed the connection exactly once, and the process has logged nothing for it: the
trace holds only the `Accept` call and the start of the handler. When no call on the
connection failed, the last call before `Close` is the `Read` that met
end-of-stream; no call fails when every write succeeds or when the peer sent no
byte; and when the peer sent no byte the handler wrote none. -/
theorem clean_close (chunks : List (List Byte)) (wp : List WriteOutcome) (n : Nat) (s : Sys)
    (hs : s.pc = .accepting) (hn : stepBound (cleanInbox chunks) ≤ n) :
    (run (sysStep s (.accept (.conn (cleanInbox chunks) wp)))
        (List.replicate n (.handler s.handlers.length))).handlers[s.handlers.length]?
        = some (handlerAfter n (cleanInbox chunks) wp) ∧
      (run (sysStep s (.accept (.conn (cleanInbox chunks) wp)))
        (List.replicate n (.handler s.handlers.length))).trace
        = s.trace ++ [.accept, .go s.handlers.length] ∧
      (handlerAfter n (cleanInbox chunks) wp).pc = .done ∧
      closeCount (handlerAfter n (cleanInbox chunks) wp).conn.ops = 1 ∧
      (noFail (handlerAfter n (cleanInbox chunks) wp).conn.ops →
        ∃ pre, (handlerAfter n (cleanInbox chunks) wp).conn.ops
          = pre ++ [.read [] (some .EOF), .close]) ∧
      (((∀ o ∈ wp, o = WriteOutcome.ok) ∨ chunks.flatten = []) →
        noFail (handlerAfter n (cleanInbox chunks) wp).conn.ops) ∧
      (chunks.flatten = [] → bytesWritten (handlerAfter n (cleanInbox chunks) wp).conn.ops = []) := by
  have hstep := sysStep_accept_conn s (cleanInbox chunks) wp hs
  have hacc := sysStep_accepting s (.accept (.conn (cleanInbox chunks) wp)) hs
  have hget : (sysStep s (.accept (.conn (cleanInbox chunks) wp))).handlers[s.handlers.length]?
      = some (Handler.start (Conn.fresh (cleanInbox chunks) wp)) := by
    rw [hstep]
    simp
  obtain ⟨htr, hh⟩ := run_handler_only n _ _ _ hacc hget
  obtain ⟨hd, pre, err, hops, hcc, hP, hE, hRS, hclean, hok⟩ := clean_run chunks wp n hn
  refine ⟨hh, ?_, hd, ?_, ?_, ?_, ?_⟩
  · rw [htr, hstep]
  · show closeCount (runHandler n _).conn.ops = 1
    rw [hops, closeCount_append, hcc]
    rfl
  · intro hF
    have hF1 : noFail (handlerAfter n (cleanInbox chunks) wp).conn.ops := hF
    rw [hops] at hF1
    obtain ⟨rfl, _⟩ := hclean ((noFail_append _ _).1 hF1).1
    obtain ⟨pre2, hpre2⟩ := hE.2.2
    refine ⟨pre2, ?_⟩
    show (runHandler n _).conn.ops = _
    rw [hops, hpre2, List.append_assoc]
    rfl
  · intro hyp
    show noFail (runHandler n _).conn.ops
    rw [hops, noFail_append, noFail_singleton]
    exact ⟨hok hyp, rfl⟩
  · intro hnil
    show bytesWritten (runHandler n _).conn.ops = []
    rw [hops]
    rw [hnil] at hRS
    have hR : bytesRead pre = [] := List.prefix_nil.1 hRS
    rw [hR] at hP
    have hW : bytesWritten pre = [] := List.prefix_nil.1 hP
    simp [bytesWritten_append, bytesWritten, hW]

theorem clean_close_witness :
    stepBound (cleanInbox [[104, 105]]) ≤ 9 ∧
      (run (sysStep bound (.accept (.conn (cleanInbox [[104, 105]]) [])))
        (List.replicate 9 (.handler 0))).trace
        = [.listen "tcp" addr, readyLine, .accept, .go 0] ∧
      (handlerAfter 9 (cleanInbox [[104, 105]]) []).conn.ops
        = [.read [104, 105] none, .write [104, 105] 2 none, .read [] (some .EOF), .close] ∧
      (handlerAfter 3 (cleanInbox []) []).conn.ops = [.read [] (some .EOF), .close] ∧
      bytesWritten (handlerAfter 3 (cleanInbox []) []).conn.ops = [] :=
  ⟨by decide, (clean_close [[104, 105]] [] 9 bound rfl (by decide)).2.1, by decide, by decide,
    (clean_close [] [] 3 bound rfl (by decide)).2.2.2.2.2.2 rfl⟩

/-- C10 as worded fails: the peer sends one byte and closes cleanly, the `Write` that
echoes the byte fails, and the handler returns and closes without ever calling the
`Read` that would meet end-of-stream. -/
theorem clean_close_counterexample :
    stepBound (cleanInbox [[1]]) ≤ 7 ∧
      (handlerAfter 7 (cleanInbox [[1]]) [.returns 0 (some (.sys 32))]).pc = .done ∧
      (handlerAfter 7 (cleanInbox [[1]]) [.returns 0 (some (.sys 32))]).conn.ops
        = [.read [1] none, .write [1] 0 (some (.sys 32)), .close] ∧
      ConnOp.read [] (some .EOF)
        ∉ (handlerAfter 7 (cleanInbox [[1]]) [.returns 0 (some (.sys 32))]).conn.ops := by
  decide

theorem failed_shape (S : List Byte) (h : Handler) (hI : HInv S h)
    (hfail : ¬ noFail h.conn.ops) :
    (handlerStep h).pc = .done ∧ closeCount (handlerStep h).conn.ops = 1 ∧
      ∃ pre op, isFailure op = true ∧ noFail pre ∧
        (h.conn.ops = pre ++ [op] ∨ h.conn.ops = pre ++ [op, .close]) := by
  obtain ⟨pc, inbox, wp, ops⟩ := h
  cases pc with
  | done =>
    obtain ⟨_, pre, err, hops, _, hC, hE⟩ := hI
    simp only at hops
    subst hops
    refine ⟨rfl, by simp [handlerStep_done, closeCount_append, closeCount, hC], ?_⟩
    cases err with
    | none =>
      exfalso
      apply hfail
      show noFail (pre ++ [.close])
      rw [noFail_append, noFail_singleton]
      exact ⟨hE.1, rfl⟩
    | some e =>
      obtain ⟨pre2, op, rfl, hop, hF⟩ := hE
      exact ⟨pre2, op, hop, hF, Or.inr (by simp)⟩
  | copying k =>
    cases k with
    | reading w => exact absurd hI.2.2.2 hfail
    | writing w buf er => exact absurd hI.2.2.2.1 hfail
    | returned w err =>
      obtain ⟨_, _, hC, hE⟩ := hI
      simp only at hC
      refine ⟨rfl, by simp [handlerStep_returned, closeCount_append, closeCount, hC], ?_⟩
      cases err with
      | none => exact absurd hE.1 hfail
      | some e =>
        obtain ⟨pre2, op, hops, hop, hF⟩ := hE
        exact ⟨pre2, op, hop, hF, Or.inl hops⟩

/-- C5: when a `Read` or `Write` of a relay has failed, the failed call is the only
failed call on the connection and the last call of the relay (nothing is retried):
the record of calls is the calls before it, the failed call and at most the `Close`.
One step later the handler has returned with the connection closed exactly once, and
it never moves again. A step of a handler changes neither `main`'s control point nor
its trace nor any other handler, and what `main` does under a schedule depends only
on what `main` can see of it: the accept loop runs as if the error had not occurred. -/
theorem relay_error_contained (inbox : List Incoming) (wp : List WriteOutcome) (n : Nat)
    (hfail : ¬ noFail (handlerAfter n inbox wp).conn.ops) :
    (∃ pre op, isFailure op = true ∧ noFail pre ∧
        ((handlerAfter n inbox wp).conn.ops = pre ++ [op] ∨
          (handlerAfter n inbox wp).conn.ops = pre ++ [op, .close])) ∧
      (handlerAfter (n + 1) inbox wp).pc = .done ∧
      closeCount (handlerAfter (n + 1) inbox wp).conn.ops = 1 ∧
      (∀ m, handlerAfter (n + 1 + m) inbox wp = handlerAfter (n + 1) inbox wp) ∧
      (∀ (s : Sys) (i : Nat), (sysStep s (.handler i)).pc = s.pc ∧
        (sysStep s (.handler i)).trace = s.trace ∧
        ∀ j, j ≠ i → (sysStep s (.handler i)).handlers[j]? = s.handlers[j]?) ∧
      (∀ (s : Sys) (sched1 sched2 : List Event),
        sched1.filterMap Event.forMain = sched2.filterMap Event.forMain →
          mainView (run s sched1) = mainView (run s sched2)) := by
  have hI := HInv_fresh_run inbox wp n
  obtain ⟨hd, hcc, hshape⟩ := failed_shape _ _ hI hfail
  have hsucc : handlerAfter (n + 1) inbox wp = handlerStep (handlerAfter n inbox wp) :=
    runHandler_succ n _
  refine ⟨hshape, by rw [hsucc]; exact hd, by rw [hsucc]; exact hcc, ?_, ?_, ?_⟩
  · intro m
    show runHandler (n + 1 + m) _ = runHandler (n + 1) _
    rw [runHandler_add]
    exact runHandler_done m _ (by rw [← hsucc] at hd; exact hd)
  · intro s i
    have hfr := sysStep_handler_frame s i
    exact ⟨hfr.1, hfr.2.1, hfr.2.2.2⟩
  · intro s sched1 sched2 heq
    rw [mainView_run sched1 s s rfl, mainView_run sched2 s s rfl, heq]

theorem relay_error_contained_witness :
    ¬ noFail (handlerAfter 3 [.data [1], .fail (.sys 104), .data [2]] []).conn.ops ∧
      (handlerAfter 4 [.data [1], .fail (.sys 104), .data [2]] []).conn.ops
        = [.read [1] none, .write [1] 1 none, .read [] (some (.sys 104)), .close] ∧
      handlerAfter (3 + 1 + 5) [.data [1], .fail (.sys 104), .data [2]] []
        = handlerAfter (3 + 1) [.data [1], .fail (.sys 104), .data [2]] [] :=
  ⟨by decide, by decide,
    (relay_error_contained [.data [1], .fail (.sys 104), .data [2]] [] 3 (by decide)).2.2.2.1 5⟩

/-- C7: under every schedule, that is every interleaving of the accept loop and of
the steps of any number of handlers, each handler is in a state of the run of a
handler alone on its own accepted connection; so the bytes written to a connection
are a leading part of the bytes read from that same connection, which are bytes its
own peer sent. A step of another handler leaves it as it is. -/
theorem no_cross_talk (sched : List Event) (i : Nat) (h : Handler)
    (hget : (main (.listen none :: sched)).handlers[i]? = some h) :
    (∃ (inbox : List Incoming) (wp : List WriteOutcome) (k : Nat),
        (accepted sched)[i]? = some (Conn.fresh inbox wp) ∧ h = handlerAfter k inbox wp ∧
          bytesWritten h.conn.ops <+: bytesRead h.conn.ops ∧
          bytesRead h.conn.ops <+: allData inbox) ∧
      ∀ j, j ≠ i → (sysStep (main (.listen none :: sched)) (.handler j)).handlers[i]? = some h := by
  have hmain : main (.listen none :: sched) = run bound sched := rfl
  rw [hmain] at hget ⊢
  refine ⟨?_, fun j hj => by
    rw [(sysStep_handler_frame (run bound sched) j).2.2.2 i (Ne.symm hj)]; exact hget⟩
  obtain ⟨c, k, hc, hk⟩ := (handlers_isolated sched).2 i h hget
  have hmem : c ∈ accepted sched := List.getElem?_mem hc
  obtain ⟨inbox, wp, rfl⟩ := accepted_fresh sched c hmem
  refine ⟨inbox, wp, k, hc, hk, ?_⟩
  rw [hk]
  exact HInv_written_read _ _ (HInv_fresh_run inbox wp k)

theorem no_cross_talk_witness :
    (main [.listen none, .accept (.conn [.data [1], .eof] []), .accept (.conn [.data [2]] []),
        .handler 1, .handler 0, .handler 1, .handler 0]).handlers[1]?
        = some (handlerAfter 2 [.data [2]] []) ∧
      bytesWritten (handlerAfter 2 [.data [2]] []).conn.ops = [2] ∧
      (sysStep (main [.listen none, .accept (.conn [.data [1], .eof] []),
        .accept (.conn [.data [2]] []), .handler 1, .handler 0, .handler 1, .handler 0])
        (.handler 0)).handlers[1]? = some (handlerAfter 2 [.data [2]] []) :=
  ⟨by decide, by decide,
    (no_cross_talk [.accept (.conn [.data [1], .eof] []), .accept (.conn [.data [2]] []),
      .handler 1, .handler 0, .handler 1, .handler 0] 1 (handlerAfter 2 [.data [2]] [])
      (by decide)).2 0 (by decide)⟩

/-- C3: when `net.Listen` returns an error, `main` prints it and exits with status 1,
whatever the environment offers afterwards: the process has made no `Accept` call,
started no handler and never logged the readiness line. -/
theorem bind_failure_fatal (e : GoError) (sched : List Event) :
    (main (.listen (some e) :: sched)).pc = .exited 1 ∧
      (main (.listen (some e) :: sched)).trace
        = [.listen "tcp" addr, .println [.err e], .exit 1] ∧
      (main (.listen (some e) :: sched)).handlers = [] ∧
      Action.accept ∉ (main (.listen (some e) :: sched)).trace ∧
      (∀ i, Action.go i ∉ (main (.listen (some e) :: sched)).trace) ∧
      readyLine ∉ (main (.listen (some e) :: sched)).trace := by
  have hrun : main (.listen (some e) :: sched)
      = ⟨.exited 1, [.listen "tcp" addr, .println [.err e], .exit 1], []⟩ :=
    run_exited _ 1 rfl sched
  rw [hrun]
  refine ⟨rfl, rfl, rfl, by simp, by simp, ?_⟩
  simp [readyLine]

theorem bind_failure_fatal_witness :
    (main [.listen (some (.sys 98)), .accept (.conn [.eof] []), .handler 0]).pc = .exited 1 ∧
      (main [.listen (some (.sys 98)), .accept (.conn [.eof] []), .handler 0]).trace
        = [.listen "tcp" addr, .println [.err (.sys 98)], .exit 1] :=
  ⟨(bind_failure_fatal (.sys 98) [.accept (.conn [.eof] []), .handler 0]).1,
    (bind_failure_fatal (.sys 98) [.accept (.conn [.eof] []), .handler 0]).2.1⟩

/-- C4: in the accept loop, an `Accept` that fails is logged with its error, starts
no handler and leaves `main` in the loop; and whatever happens next, a later
`Accept` that succeeds starts a handler on the connection it returned. -/
theorem failed_accept_continues (s : Sys) (e : GoError) (hs : s.pc = .accepting) :
    (sysStep s (.accept (.err e))).pc = .accepting ∧
      (sysStep s (.accept (.err e))).trace
        = s.trace ++ [.accept, .println [.str "Failed to accept conn.", .err e]] ∧
      (sysStep s (.accept (.err e))).handlers = s.handlers ∧
      ∀ (sched : List Event) (inbox : List Incoming) (wp : List WriteOutcome),
        (sysStep (run (sysStep s (.accept (.err e))) sched) (.accept (.conn inbox wp))).pc
            = .accepting ∧
          (sysStep (run (sysStep s (.accept (.err e))) sched) (.accept (.conn inbox wp))).handlers
            = (run (sysStep s (.accept (.err e))) sched).handlers
                ++ [Handler.start (Conn.fresh inbox wp)] ∧
          (sysStep (run (sysStep s (.accept (.err e))) sched) (.accept (.conn inbox wp))).trace
            = (run (sysStep s (.accept (.err e))) sched).trace
                ++ [.accept, .go (run (sysStep s (.accept (.err e))) sched).handlers.length] := by
  have h1 := sysStep_accept_err s e hs
  have hacc := sysStep_accepting s (.accept (.err e)) hs
  refine ⟨hacc, by rw [h1], by rw [h1], fun sched inbox wp => ?_⟩
  have hacc2 := run_accepting sched _ hacc
  rw [sysStep_accept_conn _ inbox wp hacc2]
  exact ⟨hacc2, rfl, rfl⟩

theorem failed_accept_continues_witness :
    bound.pc = .accepting ∧
      (sysStep bound (.accept (.err (.sys 24)))).trace
        = [.listen "tcp" addr, readyLine, .accept,
            .println [.str "Failed to accept conn.", .err (.sys 24)]] ∧
      (sysStep bound (.accept (.err (.sys 24)))).handlers = [] :=
  ⟨rfl, (failed_accept_continues bound (.sys 24) rfl).2.1,
    (failed_accept_continues bound (.sys 24) rfl).2.2.1⟩

/-- C8: once `net.Listen` has succeeded, after every finite schedule (accept outcomes,
successes or failures, interleaved with handler steps) `main` is in the accept loop,
about to call `Accept` again; it has called `Accept` once per outcome and has never
called `os.Exit`. No event takes `main` out of the loop. -/
theorem accept_loop_never_returns (sched : List Event) :
    (main (.listen none :: sched)).pc = .accepting ∧
      (main (.listen none :: sched)).trace.count .accept = sched.countP Event.isAccept ∧
      (∀ code, Action.exit code ∉ (main (.listen none :: sched)).trace) ∧
      ∀ (s : Sys) (ev : Event), s.pc = .accepting → (sysStep s ev).pc = .accepting := by
  have hmain : main (.listen none :: sched) = run bound sched := rfl
  rw [hmain]
  obtain ⟨added, htr, hloop, hcount⟩ := run_trace sched bound rfl
  refine ⟨run_accepting sched bound rfl, ?_, ?_, fun s ev hs => sysStep_accepting s ev hs⟩
  · rw [htr, List.count_append, hcount, bound_eq]
    simp [readyLine, List.count_cons]
  · intro code hmem
    rw [htr, bound_eq] at hmem
    simp only [List.mem_append, List.mem_cons, List.mem_singleton, List.not_mem_nil,
      or_false] at hmem
    rcases hmem with (h | h) | h
    · cases h
    · simp [readyLine] at h
    · have := hloop _ h
      simp [loopAction] at this

theorem accept_loop_never_returns_witness :
    (sysStep (main [.listen none, .accept (.err (.sys 24)), .accept (.conn [.eof] [])])
        (.accept (.err (.sys 23)))).pc = .accepting :=
  (accept_loop_never_returns []).2.2.2 _ _
    (accept_loop_never_returns [.accept (.err (.sys 24)), .accept (.conn [.eof] [])]).1

/-- C9: when `net.Listen` succeeds, the trace of `main` begins with the `Listen` call
on `addr` and then the readiness line, whose operands end with that same `addr`;
everything after it is an action of the accept loop, so the line comes before the
first `Accept` call and occurs exactly once in the whole run. -/
theorem ready_line_once (sched : List Event) :
    ∃ rest, (main (.listen none :: sched)).trace
        = [.listen "tcp" addr, .println [.str "Server is running on:", .str addr]] ++ rest ∧
      (∀ a ∈ rest, loopAction a = true) ∧ readyLine ∉ rest ∧
      (main (.listen none :: sched)).trace.count readyLine = 1 := by
  have hmain : main (.listen none :: sched) = run bound sched := rfl
  rw [hmain]
  obtain ⟨added, htr, hloop, _⟩ := run_trace sched bound rfl
  have hnot : readyLine ∉ added := fun hmem => by
    have := hloop _ hmem
    simp [loopAction, readyLine] at this
  refine ⟨added, by rw [htr]; rfl, hloop, hnot, ?_⟩
  rw [htr, List.count_append, List.count_eq_zero_of_not_mem hnot, bound_eq]
  simp [readyLine, List.count_cons]

theorem ready_line_once_witness :
    (main [.listen none, .accept (.err (.sys 24)), .accept (.conn [.eof] []),
      .handler 0]).trace.count readyLine = 1 := by
  obtain ⟨_, _, _, _, h⟩ :=
    ready_line_once [.accept (.err (.sys 24)), .accept (.conn [.eof] []), .handler 0]
  exact h

end Echo
